import Mathlib

/-!
Verification of the badger-rs storage engine against its specification.

Byte sequences are modelled as `List Nat` (each element a byte value < 256;
the operations take values mod 256 exactly where the source's `u8`/`u32`/`u64`
arithmetic does).  Fallible operations return `Except`/`Option`.  Each
definition is a shallow embedding of the correspondingly named item in the
Rust source (`src/...` paths given in the doc comments).
-/

set_option maxRecDepth 1000000

/-- Decidable equality for `Except`, used to evaluate the embedded fallible
operations on concrete inputs. -/
instance {ε α : Type} [DecidableEq ε] [DecidableEq α] : DecidableEq (Except ε α) :=
  fun x y =>
    match x, y with
    | .ok a, .ok b => if h : a = b then isTrue (by rw [h]) else isFalse (by simp [h])
    | .error a, .error b =>
      if h : a = b then isTrue (by rw [h]) else isFalse (by simp [h])
    | .ok _, .error _ => isFalse (by simp)
    | .error _, .ok _ => isFalse (by simp)

/-- Big-endian bytes of `n`, `k` bytes wide, most significant first: byte `i`
(counting from the most significant) is `n / 256 ^ (k - 1 - i) % 256`.  For
`k = 8` and `n < 2 ^ 64` this is exactly `u64::to_be_bytes`. -/
def bytesBE : Nat → Nat → List Nat
  | 0, _ => []
  | k + 1, n => n / 256 ^ k % 256 :: bytesBE k n

/-- Big-endian value of a byte list (`u64::from_be_bytes` / `u32::from_be_bytes`
when the list has 8 / 4 elements). -/
def beVal (l : List Nat) : Nat :=
  l.foldl (fun acc b => acc * 256 + b) 0

/-- Lexicographic comparison of byte slices, exactly `<[u8] as Ord>::cmp`:
elementwise, with a strict prefix ordered first. -/
def lexCmp : List Nat → List Nat → Ordering
  | [], [] => .eq
  | [], _ :: _ => .lt
  | _ :: _, [] => .gt
  | a :: as, b :: bs => if a < b then .lt else if b < a then .gt else lexCmp as bs

theorem bytesBE_mod (k n : Nat) : bytesBE k (n % 256 ^ k) = bytesBE k n := by
  induction k generalizing n with
  | zero => rfl
  | succ k ih =>
    have hdvd : 256 ^ k ∣ 256 ^ (k + 1) := pow_dvd_pow 256 (Nat.le_succ k)
    have hhead : n % 256 ^ (k + 1) / 256 ^ k % 256 = n / 256 ^ k % 256 := by
      have : n % (256 ^ k * 256) / 256 ^ k = n / 256 ^ k % 256 :=
        Nat.mod_mul_right_div_self n (256 ^ k) 256
      rw [pow_succ, this]
      omega
    have htail : bytesBE k (n % 256 ^ (k + 1)) = bytesBE k n := by
      have h1 : bytesBE k (n % 256 ^ (k + 1)) =
          bytesBE k (n % 256 ^ (k + 1) % 256 ^ k) := (ih _).symm
      rw [h1, Nat.mod_mod_of_dvd _ hdvd, ih]
    simp [bytesBE, hhead, htail]

theorem beVal_aux (k n : Nat) (acc : Nat) (h : n < 256 ^ k) :
    (bytesBE k n).foldl (fun a b => a * 256 + b) acc = acc * 256 ^ k + n := by
  induction k generalizing n acc with
  | zero =>
    interval_cases n
    simp [bytesBE]
  | succ k ih =>
    have hq : n / 256 ^ k < 256 :=
      Nat.div_lt_of_lt_mul (by rw [← pow_succ]; exact h)
    have hmod : n % 256 ^ k < 256 ^ k := Nat.mod_lt _ (Nat.pos_pow_of_pos k (by norm_num))
    have hsplit : n = n / 256 ^ k * 256 ^ k + n % 256 ^ k := (Nat.div_add_mod' n (256 ^ k)).symm
    calc (bytesBE (k + 1) n).foldl (fun a b => a * 256 + b) acc
        = (bytesBE k n).foldl (fun a b => a * 256 + b) (acc * 256 + n / 256 ^ k % 256) := by
          simp [bytesBE]
      _ = (bytesBE k (n % 256 ^ k)).foldl (fun a b => a * 256 + b)
            (acc * 256 + n / 256 ^ k) := by
          rw [bytesBE_mod, Nat.mod_eq_of_lt hq]
      _ = (acc * 256 + n / 256 ^ k) * 256 ^ k + n % 256 ^ k := ih _ _ hmod
      _ = acc * 256 ^ (k + 1) + n := by
          conv_rhs => rw [hsplit]
          ring

theorem beVal_bytesBE (k n : Nat) (h : n < 256 ^ k) : beVal (bytesBE k n) = n := by
  have := beVal_aux k n 0 h
  simpa [beVal] using this

theorem lexCmp_self (l : List Nat) : lexCmp l l = .eq := by
  induction l with
  | nil => rfl
  | cons a as ih => simp [lexCmp, ih]

theorem lexCmp_bytesBE_lt (k a b : Nat) (ha : a < 256 ^ k) (hb : b < 256 ^ k)
    (hab : a < b) : lexCmp (bytesBE k a) (bytesBE k b) = .lt := by
  induction k generalizing a b with
  | zero => omega
  | succ k ih =>
    have hpos : 0 < 256 ^ k := Nat.pos_pow_of_pos k (by norm_num)
    have hqa : a / 256 ^ k < 256 :=
      Nat.div_lt_of_lt_mul (by rw [← pow_succ]; exact ha)
    have hqb : b / 256 ^ k < 256 :=
      Nat.div_lt_of_lt_mul (by rw [← pow_succ]; exact hb)
    have hle : a / 256 ^ k ≤ b / 256 ^ k := Nat.div_le_div_right (Nat.le_of_lt hab)
    rcases Nat.lt_or_ge (a / 256 ^ k) (b / 256 ^ k) with hlt | hge
    · simp [bytesBE, lexCmp, Nat.mod_eq_of_lt hqa, Nat.mod_eq_of_lt hqb, hlt]
    · have heq : a / 256 ^ k = b / 256 ^ k := Nat.le_antisymm hle hge
      have hmodlt : a % 256 ^ k < b % 256 ^ k := by
        have hasplit := Nat.div_add_mod' a (256 ^ k)
        have hbsplit := Nat.div_add_mod' b (256 ^ k)
        rw [heq] at hasplit
        omega
      have htails : lexCmp (bytesBE k a) (bytesBE k b) = .lt := by
        rw [← bytesBE_mod k a, ← bytesBE_mod k b]
        exact ih _ _ (Nat.mod_lt _ hpos) (Nat.mod_lt _ hpos) hmodlt
      simp [bytesBE, lexCmp, Nat.mod_eq_of_lt hqa, Nat.mod_eq_of_lt hqb, heq, htails]

/-! ### MVCC internal-key codec (`src/util/mod.rs`, module `kv`) -/

/-- Value of `u64::MAX`. -/
def u64MAX : Nat := 2 ^ 64 - 1

/-- `kv::key_with_ts`: append the 8 big-endian bytes of `u64::MAX - ts` to the
user key. -/
def key_with_ts (key : List Nat) (ts : Nat) : List Nat :=
  key ++ bytesBE 8 (u64MAX - ts)

/-- `kv::parse_key`: drop the 8-byte version suffix (empty input gives an
empty key). -/
def parse_key (key : List Nat) : List Nat :=
  if key.length = 0 then [] else key.take (key.length - 8)

/-- `kv::parse_ts`: recover the version from the 8-byte big-endian suffix
(0 for keys shorter than 8 bytes). -/
def parse_ts (key : List Nat) : Nat :=
  if key.length < 8 then 0 else u64MAX - beVal (key.drop (key.length - 8))

/-- `kv::compare_keys`: compare the user-key parts, then the 8-byte version
suffixes. -/
def compare_keys (a b : List Nat) : Ordering :=
  let x := lexCmp (a.take (a.length - 8)) (b.take (b.length - 8))
  if x ≠ .eq then x else lexCmp (a.drop (a.length - 8)) (b.drop (b.length - 8))

theorem pow256_eight : 256 ^ 8 = 2 ^ 64 := by norm_num

/-- C4: internal-key codec round-trip and version ordering.  For every user
key and versions `v1 > v2` below `2^64`, `parse_key (key_with_ts u v1) = u`,
`parse_ts (key_with_ts u v1) = v1`, and the internal key with the larger
version compares strictly before the one with the smaller version under
`compare_keys`. -/
theorem c4_key_codec (userKey : List Nat) (v1 v2 : Nat) (h1 : v1 < 2 ^ 64)
    (h2 : v2 < v1) :
    parse_key (key_with_ts userKey v1) = userKey ∧
    parse_ts (key_with_ts userKey v1) = v1 ∧
    compare_keys (key_with_ts userKey v1) (key_with_ts userKey v2) = .lt := by
  have hlen8 : (bytesBE 8 (u64MAX - v1)).length = 8 := by
    simp [bytesBE]
  have hlen8b : (bytesBE 8 (u64MAX - v2)).length = 8 := by
    simp [bytesBE]
  have hlen : (key_with_ts userKey v1).length = userKey.length + 8 := by
    simp [key_with_ts, hlen8]
  have hlenb : (key_with_ts userKey v2).length = userKey.length + 8 := by
    simp [key_with_ts, hlen8b]
  have htake : (key_with_ts userKey v1).take ((key_with_ts userKey v1).length - 8)
      = userKey := by
    rw [hlen, Nat.add_sub_cancel, key_with_ts]
    exact List.take_left userKey (bytesBE 8 (u64MAX - v1))
  have htakeb : (key_with_ts userKey v2).take ((key_with_ts userKey v2).length - 8)
      = userKey := by
    rw [hlenb, Nat.add_sub_cancel, key_with_ts]
    exact List.take_left userKey (bytesBE 8 (u64MAX - v2))
  have hdrop : (key_with_ts userKey v1).drop ((key_with_ts userKey v1).length - 8)
      = bytesBE 8 (u64MAX - v1) := by
    rw [hlen, Nat.add_sub_cancel, key_with_ts]
    exact List.drop_left userKey (bytesBE 8 (u64MAX - v1))
  have hdropb : (key_with_ts userKey v2).drop ((key_with_ts userKey v2).length - 8)
      = bytesBE 8 (u64MAX - v2) := by
    rw [hlenb, Nat.add_sub_cancel, key_with_ts]
    exact List.drop_left userKey (bytesBE 8 (u64MAX - v2))
  have hv1le : v1 ≤ u64MAX := by
    simp only [u64MAX]
    omega
  have hsub1 : u64MAX - v1 < 256 ^ 8 := by
    rw [pow256_eight]
    simp only [u64MAX]
    omega
  have hsub2 : u64MAX - v2 < 256 ^ 8 := by
    rw [pow256_eight]
    simp only [u64MAX]
    omega
  refine ⟨?_, ?_, ?_⟩
  · rw [parse_key, if_neg (by rw [hlen]; omega), htake]
  · rw [parse_ts, if_neg (by rw [hlen]; omega), hdrop, beVal_bytesBE 8 _ hsub1]
    simp only [u64MAX]
    omega
  · rw [compare_keys]
    simp only [htake, htakeb, hdrop, hdropb, lexCmp_self]
    rw [if_neg (by simp)]
    exact lexCmp_bytesBE_lt 8 _ _ hsub1 hsub2 (by simp only [u64MAX]; omega)

/-- Witness for C4 at `userKey = [1, 2]`, `v1 = 5`, `v2 = 3`. -/
theorem c4_key_codec_witness :
    5 < 2 ^ 64 ∧ 3 < 5 ∧
    (parse_key (key_with_ts [1, 2] 5) = [1, 2] ∧
      parse_ts (key_with_ts [1, 2] 5) = 5 ∧
      compare_keys (key_with_ts [1, 2] 5) (key_with_ts [1, 2] 3) = .lt) :=
  ⟨by decide, by decide, c4_key_codec [1, 2] 5 3 (by decide) (by decide)⟩

/-! ### Protobuf varint codec (crate `integer-encoding`, used by the entry
and value-struct codecs) -/

/-- Fuel-indexed worker for the varint encoder.  The fuel only bounds the
number of 7-bit groups; `encode_var` passes `n` itself, which always
suffices (shown by `encode_var_eq`), keeping the recursion structural so
the kernel can evaluate it. -/
def encodeVarFuel : Nat → Nat → List Nat
  | 0, n => [n]
  | fuel + 1, n =>
    if n < 128 then [n] else (n % 128 + 128) :: encodeVarFuel fuel (n / 128)

/-- LEB128 unsigned varint encoding (`VarInt::encode_var_vec` for `u64`):
little-endian 7-bit groups, the high bit of a byte marking continuation. -/
def encode_var (n : Nat) : List Nat :=
  encodeVarFuel n n

theorem encodeVarFuel_adequate (fuel : Nat) : ∀ fuel2 n, n ≤ fuel → n ≤ fuel2 →
    encodeVarFuel fuel n = encodeVarFuel fuel2 n := by
  induction fuel with
  | zero =>
    intro fuel2 n h1 _
    interval_cases n
    cases fuel2 <;> simp [encodeVarFuel]
  | succ fuel ih =>
    intro fuel2 n h1 h2
    by_cases hn : n < 128
    · cases fuel2 with
      | zero =>
        interval_cases n
        simp [encodeVarFuel]
      | succ fuel2 => simp [encodeVarFuel, hn]
    · cases fuel2 with
      | zero => omega
      | succ fuel2 =>
        have hdivle : n / 128 ≤ n - 1 := by
          have : n / 128 < n := Nat.div_lt_self (by omega) (by omega)
          omega
        simp only [encodeVarFuel, if_neg hn]
        rw [ih fuel2 (n / 128) (by omega) (by omega)]

/-- Unfolding characterization of `encode_var`, matching the source's
recursion literally. -/
theorem encode_var_eq (n : Nat) :
    encode_var n = if n < 128 then [n] else (n % 128 + 128) :: encode_var (n / 128) := by
  by_cases hn : n < 128
  · cases n with
    | zero => simp [encode_var, encodeVarFuel, hn]
    | succ m => simp [encode_var, encodeVarFuel, hn]
  · have hpos : 0 < n := by omega
    obtain ⟨m, rfl⟩ : ∃ m, n = m + 1 := ⟨n - 1, by omega⟩
    simp only [encode_var, encodeVarFuel, if_neg hn]
    congr 1
    exact encodeVarFuel_adequate m ((m + 1) / 128) ((m + 1) / 128)
      (by have := Nat.div_lt_self (show 0 < m + 1 by omega) (show 1 < 128 by omega); omega)
      (le_refl _)

/-- Worker for varint decoding: accumulates 7-bit groups and the number of
bytes consumed; `none` models the reader failing at end of input. -/
def decodeVarGo : List Nat → Nat → Nat → Nat → Option (Nat × Nat)
  | [], _, _, _ => none
  | b :: rest, shift, acc, cnt =>
    if b < 128 then some (acc + b * 2 ^ shift, cnt + 1)
    else decodeVarGo rest (shift + 7) (acc + b % 128 * 2 ^ shift) (cnt + 1)

/-- LEB128 unsigned varint decoding (`VarInt::decode_var` for `u64`),
returning the value and the number of bytes consumed. -/
def decode_var (l : List Nat) : Option (Nat × Nat) :=
  decodeVarGo l 0 0 0

theorem decodeVarGo_encode (n : Nat) (rest : List Nat) (shift acc cnt : Nat) :
    decodeVarGo (encode_var n ++ rest) shift acc cnt =
      some (acc + n * 2 ^ shift, cnt + (encode_var n).length) := by
  induction n using Nat.strong_induction_on generalizing rest shift acc cnt with
  | _ n ih =>
    by_cases h : n < 128
    · rw [encode_var_eq, if_pos h]
      simp [decodeVarGo, if_pos h]
    · rw [encode_var_eq, if_neg h]
      have hb : ¬ n % 128 + 128 < 128 := by omega
      have hmod : (n % 128 + 128) % 128 = n % 128 := by omega
      simp only [List.cons_append, decodeVarGo, if_neg hb, hmod, List.append_eq]
      rw [ih (n / 128) (Nat.div_lt_self (by omega) (by omega))]
      have hsplit : n = 128 * (n / 128) + n % 128 := (Nat.div_add_mod n 128).symm
      have hpow : (2 : Nat) ^ (shift + 7) = 2 ^ shift * 128 := by
        rw [pow_add]
        norm_num
      congr 2
      · rw [hpow]
        conv_rhs => rw [hsplit]
        ring
      · simp only [List.length_cons]
        omega

theorem decode_encode_var (n : Nat) (rest : List Nat) :
    decode_var (encode_var n ++ rest) = some (n, (encode_var n).length) := by
  have := decodeVarGo_encode n rest 0 0 0
  simpa [decode_var] using this

/-! ### CRC-32C, Castagnoli (crate `crc` with `CRC_32_ISCSI`, the `CASTAGNOLI`
constant of `src/manifest.rs`) -/

/-- One bit step of the reflected CRC-32C: shift right, conditionally xor the
reversed polynomial 0x82F63B78. -/
def crcRound (c : Nat) : Nat :=
  if c % 2 = 1 then (c / 2) ^^^ 0x82F63B78 else c / 2

/-- Absorb one byte into the CRC state (8 bit steps). -/
def crcByte (crc b : Nat) : Nat :=
  (List.range 8).foldl (fun c _ => crcRound c) (crc ^^^ b)

/-- CRC-32C of a byte list: init 0xFFFFFFFF, final xor 0xFFFFFFFF. -/
def crc32c (l : List Nat) : Nat :=
  (l.foldl crcByte 0xFFFFFFFF) ^^^ 0xFFFFFFFF

/-! ### ValueStruct codec (`src/value.rs`) -/

/-- `ValueStruct`: the value as stored in a memtable/table entry.  `meta` is
the `Meta` bitset as its `u8` value; `version` is not serialized. -/
structure ValueStruct where
  meta : Nat
  user_meta : Nat
  expires_at : Nat
  value : List Nat
  version : Nat
  deriving DecidableEq, Repr

/-- `ValueStruct::encoded_size`: value length + 2 metadata bytes + varint
space of `expires_at`. -/
def ValueStruct.encoded_size (v : ValueStruct) : Nat :=
  v.value.length + 2 + (encode_var v.expires_at).length

/-- `ValueStruct::encode_to_vec`: 1 byte meta, 1 byte user_meta, varint
`expires_at`, then the raw value bytes. -/
def ValueStruct.encode_to_vec (v : ValueStruct) : List Nat :=
  v.meta :: v.user_meta :: (encode_var v.expires_at ++ v.value)

/-- `ValueStruct::decode`.  The source reads `meta` from `data[0]` and
`user_meta` also from `data[0]` (not `data[1]`), decodes the varint from
`data[2..]` and takes the remainder as the value; `none` models the
out-of-bounds panic on fewer than 2 input bytes and the varint failure. -/
def ValueStruct.decode (data : List Nat) : Option ValueStruct :=
  match data with
  | d0 :: _ :: rest =>
    match decode_var rest with
    | some (expires_at, sz) => some ⟨d0, d0, expires_at, rest.drop sz, 0⟩
    | none => none
  | _ => none

/-- C8: the claim that `decode (encode_to_vec v)` recovers `user_meta` fails:
for `v` with `meta = 0`, `user_meta = 1`, the decoded `user_meta` is 0
(the source copies `data[0]` into both fields).  All other serialized fields
(meta, expires_at, value) are recovered. -/
theorem c8_value_struct_decode_bug :
    ValueStruct.decode (ValueStruct.encode_to_vec ⟨0, 1, 0, [], 0⟩) =
      some ⟨0, 0, 0, [], 0⟩ ∧
    (ValueStruct.decode (ValueStruct.encode_to_vec ⟨0, 1, 0, [], 0⟩)).map
        ValueStruct.user_meta ≠ some 1 := by
  constructor
  · rfl
  · decide

/-! ### Manifest (`src/manifest.rs`) -/

/-- `TableManifest`: level and key id recorded for a table. -/
structure TableManifest where
  level : Nat
  key_id : Nat
  deriving DecidableEq, Repr

/-- In-memory `Manifest`.  `tables` models the `HashMap<u64, TableManifest>`
as an association list; each element of `levels` models a
`LevelManifest { tables: HashSet<u64> }` as a list of fids. -/
structure Manifest where
  levels : List (List Nat)
  tables : List (Nat × TableManifest)
  creations : Nat
  deletions : Nat
  deriving DecidableEq, Repr

/-- `Manifest::new`. -/
def Manifest.new : Manifest :=
  ⟨[], [], 0, 0⟩

/-- A `pb::ManifestChange`: Create or Delete of a table id (level and key id
are only meaningful for Create). -/
inductive ManifestChange where
  | create (id : Nat) (level : Nat) (key_id : Nat)
  | delete (id : Nat)
  deriving DecidableEq, Repr

/-- Association-list update, modelling `HashMap::insert` (replaces the value
of an existing key, otherwise appends). -/
def assocInsert {state : Type} [DecidableEq state] {α : Type} (l : List (state × α))
    (k : state) (v : α) : List (state × α) :=
  if l.any (fun p => p.fst = k) then
    l.map (fun p => if p.fst = k then (k, v) else p)
  else l ++ [(k, v)]

/-- Association-list removal (`HashMap::remove`). -/
def assocRemove {state : Type} [DecidableEq state] {α : Type} (l : List (state × α))
    (k : state) : List (state × α) :=
  l.filter (fun p => p.fst ≠ k)

/-- Association-list lookup (`HashMap::get` / `contains_key`). -/
def assocFind {state : Type} [DecidableEq state] {α : Type} (l : List (state × α))
    (k : state) : Option α :=
  (l.find? (fun p => p.fst = k)).map Prod.snd

/-- Replace the set at index `i` of the levels vector by `f` applied to it
(`mf.levels.get_mut(i)`). -/
def levelsModify (levels : List (List Nat)) (i : Nat) (f : List Nat → List Nat) :
    List (List Nat) :=
  levels.mapIdx (fun j s => if j = i then f s else s)

/-- `apply_manifest_change`.  Create: fail if the id exists, insert into
`tables`, extend `levels` as needed, insert into the level's set, increment
`creations`.  Delete: fail if the id is absent, remove from the recorded
level's set and from `tables`.  (The source does not touch `deletions` in the
Delete arm.) -/
def apply_manifest_change (mf : Manifest) (change : ManifestChange) :
    Except Unit Manifest :=
  match change with
  | .create id level keyId =>
    if (assocFind mf.tables id).isSome then .error ()
    else
      let tables := assocInsert mf.tables id ⟨level, keyId⟩
      let levels := mf.levels ++ List.replicate (level + 1 - mf.levels.length) []
      let levels := levelsModify levels level (fun s => s ++ [id])
      .ok { mf with tables := tables, levels := levels,
                    creations := mf.creations + 1 }
  | .delete id =>
    match assocFind mf.tables id with
    | none => .error ()
    | some tm =>
      let levels := levelsModify mf.levels tm.level (fun s => s.filter (· ≠ id))
      .ok { mf with tables := assocRemove mf.tables id, levels := levels }

/-- C3 evaluated on the code: on a fresh manifest, `Create {id 1, level 0}`
then `Delete 1` leaves id 1 absent from `tables` and from every level set
and gives `creations = 1`, and duplicate Create and absent Delete fail, as
the claim states; but `deletions` is 0, not 1 — the Delete arm of
`apply_manifest_change` never increments it, contradicting the `deletions`
field's documented purpose. -/
theorem c3_manifest_create_delete_bug :
    ((apply_manifest_change Manifest.new (.create 1 0 0)).bind
        (fun m => apply_manifest_change m (.delete 1))) =
      .ok ⟨[[]], [], 1, 0⟩ ∧
    ((apply_manifest_change Manifest.new (.create 1 0 0)).bind
        (fun m => apply_manifest_change m (.create 1 0 0))) = .error () ∧
    apply_manifest_change Manifest.new (.delete 1) = .error () := by
  refine ⟨rfl, rfl, rfl⟩

/-! ### Banned namespaces (`src/db.rs`, `DBInner::is_banned`) -/

/-- Errors surfaced by the transaction write path (`src/error.rs` variants
referenced by `Txn::modify` and `DBInner::is_banned`). -/
inductive TxnErr where
  | readOnlyTxn
  | discardedTxn
  | emptyKey
  | invalidKey
  | exceedsSize
  | bannedKey
  | txnTooBig
  deriving DecidableEq, Repr

/-- `DBInner::is_banned`: no check when `namespace_offset < 0` or when the
key has at most `offset + 8` bytes; otherwise the 8-byte big-endian u64 at
the offset is looked up in the banned set. -/
def is_banned (namespaceOffset : Int) (banned : List Nat) (key : List Nat) :
    Except TxnErr Unit :=
  if namespaceOffset < 0 then .ok ()
  else
    let off := namespaceOffset.toNat
    if key.length ≤ off + 8 then .ok ()
    else
      let num := beVal ((key.drop off).take 8)
      if num ∈ banned then .error .bannedKey else .ok ()

/-- C6 counterexample: with `namespace_offset = 0` and namespace 0 banned, a
key of exactly `offset + 8 = 8` bytes whose embedded namespace is 0 is NOT
rejected (the source uses `key.len() <= off + 8`, excluding the boundary),
contradicting the claim that a key of exactly `namespace_offset + 8` bytes
is checked. -/
theorem c6_is_banned_counterexample :
    is_banned 0 [0] (List.replicate 8 0) = .ok () ∧
    (List.replicate 8 (0 : Nat)).length = 0 + 8 ∧
    beVal ((List.replicate 8 (0 : Nat)).take 8) ∈ [0] := by
  refine ⟨rfl, rfl, by decide⟩

/-- C6 amended: the namespace check applies only to keys strictly longer
than `namespace_offset + 8` bytes.  For those, the 8-byte big-endian u64 at
the offset is extracted and the key is rejected with BannedKey exactly when
that number is banned; shorter keys (including exactly `offset + 8` bytes),
and all keys when `namespace_offset < 0`, are never rejected. -/
theorem c6_is_banned_cases (nsOff : Int) (banned key : List Nat) :
    (nsOff < 0 → is_banned nsOff banned key = .ok ()) ∧
    (0 ≤ nsOff → key.length ≤ nsOff.toNat + 8 → is_banned nsOff banned key = .ok ()) ∧
    (0 ≤ nsOff → nsOff.toNat + 8 < key.length →
      (beVal ((key.drop nsOff.toNat).take 8) ∈ banned →
        is_banned nsOff banned key = .error .bannedKey) ∧
      (beVal ((key.drop nsOff.toNat).take 8) ∉ banned →
        is_banned nsOff banned key = .ok ())) := by
  refine ⟨?_, ?_, ?_⟩
  · intro h
    simp [is_banned, h]
  · intro h hlen
    rw [is_banned, if_neg (by omega), if_pos hlen]
  · intro h hlen
    constructor
    · intro hmem
      rw [is_banned, if_neg (by omega), if_neg (by omega)]
      simp only [hmem, if_pos]
    · intro hmem
      rw [is_banned, if_neg (by omega), if_neg (by omega)]
      simp only [hmem, if_neg]
      simp [hmem]

/-- Witness for C6 amended, covering each branch: negative offset, short
key, boundary-length key, banned long key, non-banned long key. -/
theorem c6_is_banned_cases_witness :
    is_banned (-1) [5] [0, 0, 0, 0, 0, 0, 0, 5, 9] = .ok () ∧
    is_banned 0 [5] [1, 2, 3] = .ok () ∧
    is_banned 0 [5] [0, 0, 0, 0, 0, 0, 0, 5, 9] = .error .bannedKey ∧
    is_banned 0 [7] [0, 0, 0, 0, 0, 0, 0, 5, 9] = .ok () :=
  ⟨(c6_is_banned_cases (-1) [5] [0, 0, 0, 0, 0, 0, 0, 5, 9]).1 (by decide),
   (c6_is_banned_cases 0 [5] [1, 2, 3]).2.1 (by decide) (by decide),
   ((c6_is_banned_cases 0 [5] [0, 0, 0, 0, 0, 0, 0, 5, 9]).2.2 (by decide)
      (by decide)).1 (by decide),
   ((c6_is_banned_cases 0 [7] [0, 0, 0, 0, 0, 0, 0, 5, 9]).2.2 (by decide)
      (by decide)).2 (by decide)⟩

/-! ### Entries (`src/entry.rs`) and the transaction write path
(`src/txn/txn.rs`) -/

/-- `Entry` (`src/entry.rs`): the record shared by the WAL/vlog codec and the
transaction layer.  `meta` is the `Meta` bitset as its `u8` value. -/
structure Entry where
  key : List Nat
  value : List Nat
  expires_at : Nat
  version : Nat
  user_meta : Nat
  meta : Nat
  offset : Nat
  header_len : Nat
  value_threshold : Nat
  deriving DecidableEq, Repr

/-- `Meta::TXN` bit (1 << 6). -/
def BIT_TXN : Nat := 64

/-- `Meta::FIN_TXN` bit (1 << 7). -/
def BIT_FIN_TXN : Nat := 128

/-- `Entry::estimate_size_and_set_threshold`: sets `value_threshold` if it is
still 0, then returns the updated entry together with the estimate
(`key + value + 2` below the threshold, `key + 12 + 2` otherwise). -/
def estimate_size_and_set_threshold (e : Entry) (threshold : Nat) : Entry × Nat :=
  let e1 := if e.value_threshold = 0 then { e with value_threshold := threshold } else e
  if e1.value.length < e1.value_threshold then
    (e1, e1.key.length + e1.value.length + 2)
  else
    (e1, e1.key.length + 12 + 2)

/-- The reserved key bytes `b"!badger!"` (`BADGER_PREFIX`). -/
def badgerPrefixBytes : List Nat :=
  [33, 98, 97, 100, 103, 101, 114, 33]

/-- Options consulted by `Txn::modify` (`src/option.rs` fields, plus the
banned-namespace set held by `DBInner`). -/
structure TxnOpts where
  value_log_file_size : Nat
  max_batch_size : Nat
  value_threshold : Nat
  detect_conflicts : Bool
  namespace_offset : Int
  banned : List Nat

/-- Transaction state touched by `Txn::modify` / `Txn::check_size`.
`conflict_keys` models the `HashMap<u64, ()>` as a list of hashes;
`pending_writes` models the `HashMap<Bytes, Entry>`. -/
structure Txn where
  update : Bool
  discarded : Bool
  size : Nat
  count : Nat
  conflict_keys : List Nat
  pending_writes : List (List Nat × Entry)
  deriving DecidableEq, Repr

/-- `Txn::new`: pre-charges `size = |TXN_KEY| + 10 = 21` (`TXN_KEY` is the
11-byte `b"!badger!txn"`) and `count = 1`. -/
def txn_new (update : Bool) : Txn :=
  ⟨update, false, 21, 1, [], []⟩

/-- Set insertion for `conflict_keys` (`HashMap<u64, ()>::insert`). -/
def conflictInsert (l : List Nat) (h : Nat) : List Nat :=
  if h ∈ l then l else l ++ [h]

/-- `Txn::modify`, parametrized by the options and by the `mem_hash`
function (the standard library's `DefaultHasher`, whose exact 64-bit output
is unspecified and therefore kept abstract).  The checks appear in source
order; `check_size` is inlined (it only runs after the earlier checks
pass and mutates `count`/`size` only on success). -/
def txn_modify (opt : TxnOpts) (memHash : List Nat → Nat) (txn : Txn) (e : Entry) :
    Except TxnErr Txn :=
  if !txn.update then .error .readOnlyTxn
  else if txn.discarded then .error .discardedTxn
  else if e.key.length = 0 then .error .emptyKey
  else if badgerPrefixBytes.isPrefixOf e.key then .error .invalidKey
  else if e.key.length > 65000 then .error .exceedsSize
  else if e.value.length > opt.value_log_file_size then .error .exceedsSize
  else
    match is_banned opt.namespace_offset opt.banned e.key with
    | .error err => .error err
    | .ok () =>
      let (e1, est) := estimate_size_and_set_threshold e opt.value_threshold
      let size := txn.size + est + 10
      if size ≥ opt.max_batch_size then .error .txnTooBig
      else
        let txn1 := { txn with count := txn.count + 1, size := size }
        let txn2 :=
          if opt.detect_conflicts then
            { txn1 with conflict_keys := conflictInsert txn1.conflict_keys (memHash e1.key) }
          else txn1
        .ok { txn2 with pending_writes := assocInsert txn2.pending_writes e1.key e1 }

/-- Options used by the C5 counterexample. -/
def c5Opts : TxnOpts :=
  ⟨1000000, 30, 1, false, -1, []⟩

/-- Entry used by the C5 counterexample: key `"k"`, empty value. -/
def c5Entry : Entry :=
  ⟨[107], [], 0, 0, 0, 0, 0, 0, 0⟩

/-- C5 counterexample: with `max_batch_size = 30`, a fresh update
transaction (accumulated size 21) and an entry of estimated size 3, the
claim predicts success (21 + 3 = 24 < 30 does not "reach" the limit), but
`Txn::modify` rejects with TxnTooBig because the source compares
`size + estimate + 10 = 34 ≥ 30`. -/
theorem c5_txn_modify_counterexample :
    txn_modify c5Opts (fun _ => 0) (txn_new true) c5Entry = .error .txnTooBig ∧
    (txn_new true).size +
      (estimate_size_and_set_threshold c5Entry c5Opts.value_threshold).snd <
      c5Opts.max_batch_size := by
  refine ⟨rfl, by decide⟩

/-- C5 amended: `Txn::modify` fails with ReadOnlyTxn when the transaction is
not an update transaction; then with DiscardedTxn when discarded; then with
EmptyKey for an empty key; then with InvalidKey for a key starting with
`!badger!`; then with an error when the key exceeds 65 000 bytes or the
value exceeds `value_log_file_size`; with BannedKey when the namespace check
rejects; and with TxnTooBig when the accumulated size plus the entry's
estimated size PLUS A 10-BYTE OVERHEAD reaches `max_batch_size`.  On success
the (threshold-updated) entry is stored in `pending_writes` keyed by its
key, overwriting any earlier pending write to the same key. -/
theorem c5_txn_modify_validation (opt : TxnOpts) (memHash : List Nat → Nat)
    (txn : Txn) (e : Entry) :
    (¬ txn.update → txn_modify opt memHash txn e = .error .readOnlyTxn) ∧
    (txn.update → txn.discarded →
      txn_modify opt memHash txn e = .error .discardedTxn) ∧
    (txn.update → ¬ txn.discarded → e.key.length = 0 →
      txn_modify opt memHash txn e = .error .emptyKey) ∧
    (txn.update → ¬ txn.discarded → e.key.length ≠ 0 →
      badgerPrefixBytes.isPrefixOf e.key →
      txn_modify opt memHash txn e = .error .invalidKey) ∧
    (txn.update → ¬ txn.discarded → e.key.length ≠ 0 →
      ¬ badgerPrefixBytes.isPrefixOf e.key → e.key.length > 65000 →
      txn_modify opt memHash txn e = .error .exceedsSize) ∧
    (txn.update → ¬ txn.discarded → e.key.length ≠ 0 →
      ¬ badgerPrefixBytes.isPrefixOf e.key → e.key.length ≤ 65000 →
      e.value.length > opt.value_log_file_size →
      txn_modify opt memHash txn e = .error .exceedsSize) ∧
    (txn.update → ¬ txn.discarded → e.key.length ≠ 0 →
      ¬ badgerPrefixBytes.isPrefixOf e.key → e.key.length ≤ 65000 →
      e.value.length ≤ opt.value_log_file_size →
      is_banned opt.namespace_offset opt.banned e.key = .error .bannedKey →
      txn_modify opt memHash txn e = .error .bannedKey) ∧
    (txn.update → ¬ txn.discarded → e.key.length ≠ 0 →
      ¬ badgerPrefixBytes.isPrefixOf e.key → e.key.length ≤ 65000 →
      e.value.length ≤ opt.value_log_file_size →
      is_banned opt.namespace_offset opt.banned e.key = .ok () →
      txn.size + (estimate_size_and_set_threshold e opt.value_threshold).snd + 10 ≥
        opt.max_batch_size →
      txn_modify opt memHash txn e = .error .txnTooBig) ∧
    (txn.update → ¬ txn.discarded → e.key.length ≠ 0 →
      ¬ badgerPrefixBytes.isPrefixOf e.key → e.key.length ≤ 65000 →
      e.value.length ≤ opt.value_log_file_size →
      is_banned opt.namespace_offset opt.banned e.key = .ok () →
      txn.size + (estimate_size_and_set_threshold e opt.value_threshold).snd + 10 <
        opt.max_batch_size →
      ∃ txn2 : Txn,
        txn_modify opt memHash txn e = .ok txn2 ∧
        txn2.size = txn.size +
          (estimate_size_and_set_threshold e opt.value_threshold).snd + 10 ∧
        txn2.count = txn.count + 1 ∧
        txn2.pending_writes = assocInsert txn.pending_writes
          (estimate_size_and_set_threshold e opt.value_threshold).fst.key
          (estimate_size_and_set_threshold e opt.value_threshold).fst) := by
  refine ⟨?_, ?_, ?_, ?_, ?_, ?_, ?_, ?_, ?_⟩
  · intro h
    simp [txn_modify, h]
  · intro h1 h2
    simp [txn_modify, h1, h2]
  · intro h1 h2 h3
    simp [txn_modify, h1, h2, h3]
  · intro h1 h2 h3 h4
    simp [txn_modify, h1, h2, h3, h4]
  · intro h1 h2 h3 h4 h5
    simp [txn_modify, h1, h2, h3, h4, h5]
  · intro h1 h2 h3 h4 h5 h6
    have hk : ¬ 65000 < e.key.length := by omega
    simp [txn_modify, h1, h2, h3, h4, hk, h6]
  · intro h1 h2 h3 h4 h5 h6 h7
    have hk : ¬ 65000 < e.key.length := by omega
    have hv : ¬ opt.value_log_file_size < e.value.length := by omega
    simp [txn_modify, h1, h2, h3, h4, hk, hv, h7]
  · intro h1 h2 h3 h4 h5 h6 h7 h8
    have hk : ¬ 65000 < e.key.length := by omega
    have hv : ¬ opt.value_log_file_size < e.value.length := by omega
    have hge : opt.max_batch_size ≤
        txn.size + (estimate_size_and_set_threshold e opt.value_threshold).2 + 10 := h8
    simp [txn_modify, h1, h2, h3, h4, hk, hv, h7, hge]
  · intro h1 h2 h3 h4 h5 h6 h7 h8
    have hk : ¬ 65000 < e.key.length := by omega
    have hv : ¬ opt.value_log_file_size < e.value.length := by omega
    have hlt : ¬ opt.max_batch_size ≤
        txn.size + (estimate_size_and_set_threshold e opt.value_threshold).2 + 10 := by
      omega
    cases hdc : opt.detect_conflicts with
    | false =>
      refine ⟨{ txn with
          count := txn.count + 1,
          size := txn.size + (estimate_size_and_set_threshold e opt.value_threshold).2 + 10,
          pending_writes := assocInsert txn.pending_writes
            (estimate_size_and_set_threshold e opt.value_threshold).fst.key
            (estimate_size_and_set_threshold e opt.value_threshold).fst },
        ?_, rfl, rfl, rfl⟩
      simp [txn_modify, h1, h2, h3, h4, hk, hv, h7, hlt, hdc]
    | true =>
      refine ⟨{ txn with
          count := txn.count + 1,
          size := txn.size + (estimate_size_and_set_threshold e opt.value_threshold).2 + 10,
          conflict_keys := conflictInsert txn.conflict_keys
            (memHash (estimate_size_and_set_threshold e opt.value_threshold).fst.key),
          pending_writes := assocInsert txn.pending_writes
            (estimate_size_and_set_threshold e opt.value_threshold).fst.key
            (estimate_size_and_set_threshold e opt.value_threshold).fst },
        ?_, rfl, rfl, rfl⟩
      simp [txn_modify, h1, h2, h3, h4, hk, hv, h7, hlt, hdc]

/-- Options with a large batch limit, for the C5 success branch. -/
def c5OptsBig : TxnOpts :=
  ⟨1000000, 1000, 1, false, -1, []⟩

/-- Options with `value_log_file_size = 0`, for the C5 oversized-value
branch. -/
def c5OptsSmallVlog : TxnOpts :=
  ⟨0, 30, 1, false, -1, []⟩

/-- Options banning namespace 5 at offset 0, for the C5 banned branch. -/
def c5OptsBanned : TxnOpts :=
  ⟨1000000, 1000, 1, false, 0, [5]⟩

/-- Witness for C5 amended, exercising every branch at concrete inputs. -/
theorem c5_txn_modify_validation_witness :
    txn_modify c5Opts (fun _ => 0) (txn_new false) c5Entry = .error .readOnlyTxn ∧
    txn_modify c5Opts (fun _ => 0) ⟨true, true, 21, 1, [], []⟩ c5Entry =
      .error .discardedTxn ∧
    txn_modify c5Opts (fun _ => 0) (txn_new true) ⟨[], [], 0, 0, 0, 0, 0, 0, 0⟩ =
      .error .emptyKey ∧
    txn_modify c5Opts (fun _ => 0) (txn_new true)
      ⟨badgerPrefixBytes ++ [120], [], 0, 0, 0, 0, 0, 0, 0⟩ = .error .invalidKey ∧
    txn_modify c5OptsBig (fun _ => 0) (txn_new true)
      ⟨List.replicate 65001 1, [], 0, 0, 0, 0, 0, 0, 0⟩ = .error .exceedsSize ∧
    txn_modify c5OptsSmallVlog (fun _ => 0) (txn_new true)
      ⟨[107], [118], 0, 0, 0, 0, 0, 0, 0⟩ = .error .exceedsSize ∧
    txn_modify c5OptsBanned (fun _ => 0) (txn_new true)
      ⟨[0, 0, 0, 0, 0, 0, 0, 5, 9], [], 0, 0, 0, 0, 0, 0, 0⟩ = .error .bannedKey ∧
    txn_modify c5Opts (fun _ => 0) (txn_new true) c5Entry = .error .txnTooBig ∧
    ∃ txn2 : Txn,
      txn_modify c5OptsBig (fun _ => 0) (txn_new true) c5Entry = .ok txn2 ∧
      txn2.size = (txn_new true).size +
        (estimate_size_and_set_threshold c5Entry c5OptsBig.value_threshold).snd + 10 ∧
      txn2.count = (txn_new true).count + 1 ∧
      txn2.pending_writes = assocInsert (txn_new true).pending_writes
        (estimate_size_and_set_threshold c5Entry c5OptsBig.value_threshold).fst.key
        (estimate_size_and_set_threshold c5Entry c5OptsBig.value_threshold).fst :=
  ⟨(c5_txn_modify_validation c5Opts (fun _ => 0) (txn_new false) c5Entry).1
      (by decide),
   (c5_txn_modify_validation c5Opts (fun _ => 0) ⟨true, true, 21, 1, [], []⟩
      c5Entry).2.1 (by decide) (by decide),
   (c5_txn_modify_validation c5Opts (fun _ => 0) (txn_new true)
      ⟨[], [], 0, 0, 0, 0, 0, 0, 0⟩).2.2.1 (by decide) (by decide) (by decide),
   (c5_txn_modify_validation c5Opts (fun _ => 0) (txn_new true)
      ⟨badgerPrefixBytes ++ [120], [], 0, 0, 0, 0, 0, 0, 0⟩).2.2.2.1
      (by decide) (by decide) (by decide) (by decide),
   (c5_txn_modify_validation c5OptsBig (fun _ => 0) (txn_new true)
      ⟨List.replicate 65001 1, [], 0, 0, 0, 0, 0, 0, 0⟩).2.2.2.2.1
      (by decide) (by decide) (by rw [List.length_replicate]; omega) (by decide)
      (by rw [List.length_replicate]; omega),
   (c5_txn_modify_validation c5OptsSmallVlog (fun _ => 0) (txn_new true)
      ⟨[107], [118], 0, 0, 0, 0, 0, 0, 0⟩).2.2.2.2.2.1
      (by decide) (by decide) (by decide) (by decide) (by decide) (by decide),
   (c5_txn_modify_validation c5OptsBanned (fun _ => 0) (txn_new true)
      ⟨[0, 0, 0, 0, 0, 0, 0, 5, 9], [], 0, 0, 0, 0, 0, 0, 0⟩).2.2.2.2.2.2.1
      (by decide) (by decide) (by decide) (by decide) (by decide) (by decide)
      (by decide),
   (c5_txn_modify_validation c5Opts (fun _ => 0) (txn_new true)
      c5Entry).2.2.2.2.2.2.2.1
      (by decide) (by decide) (by decide) (by decide) (by decide) (by decide)
      (by decide) (by decide),
   (c5_txn_modify_validation c5OptsBig (fun _ => 0) (txn_new true)
      c5Entry).2.2.2.2.2.2.2.2
      (by decide) (by decide) (by decide) (by decide) (by decide) (by decide)
      (by decide) (by decide)⟩

/-! ### Discard stats (`src/vlog/discard.rs`) -/

/-- The occupied prefix of the DISCARD file: the first `next_empty_slot`
16-byte cells, each a `(fid, discarded_bytes)` pair of u64s. -/
abbrev DiscardSlots := List (Nat × Nat)

/-- Invariant maintained by `DiscardStatsInner` (`sort` after every append,
ids never duplicated): the occupied cells are strictly sorted by fid. -/
def dsSorted (slots : DiscardSlots) : Prop :=
  slots.Pairwise (fun p q => p.fst < q.fst)

instance (slots : DiscardSlots) : Decidable (dsSorted slots) := by
  unfold dsSorted
  infer_instance

/-- The index produced by the source's
`(0..next_empty_slot).binary_search_by(|slot| get(slot*16).cmp(&fid))`
after collapsing `Ok(idx) | Err(idx) => idx`: on the strictly sorted
occupied prefix this is the number of cells with fid below the probe
(the found position when present, the insertion point otherwise). -/
def dsSearchIdx (slots : DiscardSlots) (fid : Nat) : Nat :=
  (slots.filter (fun p => p.fst < fid)).length

/-- Cast of `u64` to `i64` (`cur_disc as i64`). -/
def i64ofU64 (n : Nat) : Int :=
  if n < 2 ^ 63 then (n : Int) else (n : Int) - 2 ^ 64

/-- Insertion into a fid-sorted slot list; `sortByFid` below models
`sort_unstable_by` over the 16-byte cells, which compares the leading
fid u64. -/
def insertSortedByFid (p : Nat × Nat) : DiscardSlots → DiscardSlots
  | [] => [p]
  | q :: rest => if p.fst ≤ q.fst then p :: q :: rest else q :: insertSortedByFid p rest

/-- Sort the occupied cells by fid (`DiscardStatsInner::sort`). -/
def sortByFid (l : DiscardSlots) : DiscardSlots :=
  l.foldr insertSortedByFid []

/-- `DiscardStatsInner::update` on the occupied prefix.  Present fid:
`discard = 0` returns the current value unchanged, `discard < 0` resets the
cell to 0, `discard > 0` adds (u64 wrap-around) and returns the new value.
Absent fid: `discard ≤ 0` is a no-op returning 0, `discard > 0` appends a
new cell and re-sorts.  (File growth and `zero_out` only touch cells past
the occupied prefix.) -/
def discard_update (slots : DiscardSlots) (fid : Nat) (discard : Int) :
    DiscardSlots × Int :=
  let idx := dsSearchIdx slots fid
  if idx < slots.length ∧ (slots.getD idx (0, 0)).fst = fid then
    let cur := (slots.getD idx (0, 0)).snd
    if discard = 0 then (slots, i64ofU64 cur)
    else if discard < 0 then (slots.set idx (fid, 0), 0)
    else ((slots.set idx (fid, (cur + discard.toNat) % 2 ^ 64)),
          i64ofU64 cur + discard)
  else if discard ≤ 0 then (slots, 0)
  else (sortByFid (slots ++ [(fid, discard.toNat)]), discard)

/-- `DiscardStatsInner::max_discard`: `iterate` over the occupied prefix,
keeping the first strictly-largest value; the fid is cast to u32 at
return. -/
def max_discard (slots : DiscardSlots) : Nat × Nat :=
  let r := slots.foldl (fun acc p => if acc.snd < p.snd then (p.fst, p.snd) else acc)
    (0, 0)
  (r.fst % 2 ^ 32, r.snd)

/-- Lookup of a fid's discarded-bytes value in the occupied prefix. -/
def dsFind (slots : DiscardSlots) (fid : Nat) : Option Nat :=
  (slots.find? (fun p => p.fst = fid)).map Prod.snd

theorem dsFind_cons_of_ne (p : Nat × Nat) (l : DiscardSlots) (g : Nat)
    (h : p.fst ≠ g) : dsFind (p :: l) g = dsFind l g := by
  simp [dsFind, List.find?_cons_of_neg, h]

theorem dsFind_cons_self (p : Nat × Nat) (l : DiscardSlots) :
    dsFind (p :: l) p.fst = some p.snd := by
  simp [dsFind, List.find?_cons_of_pos]

theorem dsSearchIdx_cons_head (rest : DiscardSlots) (fid cur : Nat)
    (hrest : ∀ q ∈ rest, fid < q.fst) :
    dsSearchIdx ((fid, cur) :: rest) fid = 0 := by
  have hfilter : ((fid, cur) :: rest).filter (fun q => q.fst < fid) = [] := by
    rw [List.filter_eq_nil_iff]
    intro q hq
    rcases List.mem_cons.mp hq with rfl | hq
    · simp
    · have := hrest q hq
      simp only [decide_eq_true_eq]
      omega
  simp [dsSearchIdx, hfilter]

theorem dsSearchIdx_cons_lt (p : Nat × Nat) (rest : DiscardSlots) (fid : Nat)
    (hlt : p.fst < fid) :
    dsSearchIdx (p :: rest) fid = dsSearchIdx rest fid + 1 := by
  have hfcons : (p :: rest).filter (fun q => q.fst < fid) =
      p :: rest.filter (fun q => q.fst < fid) := by
    rw [List.filter_cons_of_pos]
    simpa using hlt
  simp [dsSearchIdx, hfcons]

theorem dsSearchIdx_mem (slots : DiscardSlots) (hs : dsSorted slots)
    (fid cur : Nat) (hmem : (fid, cur) ∈ slots) :
    dsSearchIdx slots fid < slots.length ∧
    slots.getD (dsSearchIdx slots fid) (0, 0) = (fid, cur) := by
  induction slots with
  | nil => cases hmem
  | cons p rest ih =>
    rw [dsSorted, List.pairwise_cons] at hs
    rcases List.mem_cons.mp hmem with hhead | htail
    · obtain rfl : p = (fid, cur) := hhead.symm
      have hrest : ∀ q ∈ rest, fid < q.fst := fun q hq => hs.1 q hq
      have hidx := dsSearchIdx_cons_head rest fid cur hrest
      rw [hidx]
      exact ⟨by simp, by simp⟩
    · have hlt : p.fst < fid := by
        have := hs.1 _ htail
        simpa using this
      have hidx := dsSearchIdx_cons_lt p rest fid hlt
      obtain ⟨ihlen, ihget⟩ := ih hs.2 htail
      rw [hidx]
      constructor
      · simpa using Nat.succ_lt_succ ihlen
      · simpa using ihget

theorem dsSearchIdx_absent (slots : DiscardSlots) (fid : Nat)
    (habsent : fid ∉ slots.map Prod.fst) :
    ¬ (dsSearchIdx slots fid < slots.length ∧
       (slots.getD (dsSearchIdx slots fid) (0, 0)).fst = fid) := by
  rintro ⟨hlt, heq⟩
  apply habsent
  have hmem : slots.getD (dsSearchIdx slots fid) (0, 0) ∈ slots := by
    rw [List.getD_eq_getElem _ _ hlt]
    exact List.getElem_mem _
  rw [← heq]
  exact List.mem_map_of_mem Prod.fst hmem

theorem dsFind_set (slots : DiscardSlots) (hs : dsSorted slots) (fid cur x : Nat)
    (hmem : (fid, cur) ∈ slots) :
    dsFind (slots.set (dsSearchIdx slots fid) (fid, x)) fid = some x ∧
    (∀ g, g ≠ fid →
      dsFind (slots.set (dsSearchIdx slots fid) (fid, x)) g = dsFind slots g) := by
  induction slots with
  | nil => cases hmem
  | cons p rest ih =>
    rw [dsSorted, List.pairwise_cons] at hs
    rcases List.mem_cons.mp hmem with hhead | htail
    · obtain rfl : p = (fid, cur) := hhead.symm
      have hrest : ∀ q ∈ rest, fid < q.fst := fun q hq => hs.1 q hq
      rw [dsSearchIdx_cons_head rest fid cur hrest]
      constructor
      · show dsFind ((fid, x) :: rest) fid = some x
        exact dsFind_cons_self (fid, x) rest
      · intro g hg
        show dsFind ((fid, x) :: rest) g = dsFind ((fid, cur) :: rest) g
        rw [dsFind_cons_of_ne (fid, x) rest g (Ne.symm hg),
            dsFind_cons_of_ne (fid, cur) rest g (Ne.symm hg)]
    · have hlt : p.fst < fid := by
        have := hs.1 _ htail
        simpa using this
      have hpne : p.fst ≠ fid := by omega
      rw [dsSearchIdx_cons_lt p rest fid hlt]
      obtain ⟨ih1, ih2⟩ := ih hs.2 htail
      constructor
      · show dsFind (p :: rest.set (dsSearchIdx rest fid) (fid, x)) fid = some x
        rw [dsFind_cons_of_ne p _ fid hpne]
        exact ih1
      · intro g hg
        show dsFind (p :: rest.set (dsSearchIdx rest fid) (fid, x)) g =
          dsFind (p :: rest) g
        by_cases hpg : p.fst = g
        · obtain rfl := hpg
          rw [dsFind_cons_self p _, dsFind_cons_self p rest]
        · rw [dsFind_cons_of_ne p _ g hpg, dsFind_cons_of_ne p rest g hpg]
          exact ih2 g hg

theorem insertSortedByFid_perm (p : Nat × Nat) (l : DiscardSlots) :
    (insertSortedByFid p l).Perm (p :: l) := by
  induction l with
  | nil => simp [insertSortedByFid]
  | cons q rest ih =>
    rw [insertSortedByFid]
    by_cases h : p.fst ≤ q.fst
    · rw [if_pos h]
    · rw [if_neg h]
      exact (ih.cons q).trans (List.Perm.swap p q rest)

theorem sortByFid_perm (l : DiscardSlots) : (sortByFid l).Perm l := by
  induction l with
  | nil => simp [sortByFid]
  | cons a rest ih =>
    have : sortByFid (a :: rest) = insertSortedByFid a (sortByFid rest) := rfl
    rw [this]
    exact (insertSortedByFid_perm a (sortByFid rest)).trans (ih.cons a)

theorem insertSortedByFid_sorted (p : Nat × Nat) (l : DiscardSlots)
    (hl : dsSorted l) (hp : ∀ q ∈ l, q.fst ≠ p.fst) :
    dsSorted (insertSortedByFid p l) := by
  induction l with
  | nil => simp [insertSortedByFid, dsSorted]
  | cons q rest ih =>
    rw [dsSorted, List.pairwise_cons] at hl
    rw [insertSortedByFid]
    by_cases h : p.fst ≤ q.fst
    · rw [if_pos h]
      have hpq : p.fst < q.fst := by
        have := hp q (by simp)
        omega
      rw [dsSorted, List.pairwise_cons]
      refine ⟨?_, ?_⟩
      · intro r hr
        rcases List.mem_cons.mp hr with rfl | hr
        · exact hpq
        · have := hl.1 r hr
          omega
      · rw [dsSorted] at *
        rw [List.pairwise_cons]
        exact hl
    · rw [if_neg h]
      rw [dsSorted, List.pairwise_cons]
      refine ⟨?_, ?_⟩
      · intro r hr
        have hr2 := (insertSortedByFid_perm p rest).mem_iff.mp hr
        rcases List.mem_cons.mp hr2 with rfl | hr2
        · omega
        · exact hl.1 r hr2
      · exact ih hl.2 (fun r hr => hp r (by simp [hr]))

theorem sortByFid_sorted (l : DiscardSlots) (hnodup : (l.map Prod.fst).Nodup) :
    dsSorted (sortByFid l) := by
  induction l with
  | nil => simp [sortByFid, dsSorted]
  | cons a rest ih =>
    rw [List.map_cons, List.nodup_cons] at hnodup
    have hsort : sortByFid (a :: rest) = insertSortedByFid a (sortByFid rest) := rfl
    rw [hsort]
    refine insertSortedByFid_sorted a (sortByFid rest) (ih hnodup.2) ?_
    intro q hq
    have hq2 := (sortByFid_perm rest).mem_iff.mp hq
    intro hcontra
    exact hnodup.1 (hcontra ▸ List.mem_map_of_mem Prod.fst hq2)

theorem dsSorted_fst_nodup (l : DiscardSlots) (hs : dsSorted l) :
    (l.map Prod.fst).Nodup := by
  rw [List.Nodup, List.pairwise_map]
  exact hs.imp (fun h => Nat.ne_of_lt h)

theorem max_discard_foldl_spec (slots : DiscardSlots) (acc : Nat × Nat) :
    (∀ p ∈ slots, p.snd ≤
      (slots.foldl (fun a p => if a.snd < p.snd then (p.fst, p.snd) else a) acc).snd) ∧
    acc.snd ≤
      (slots.foldl (fun a p => if a.snd < p.snd then (p.fst, p.snd) else a) acc).snd ∧
    ((slots.foldl (fun a p => if a.snd < p.snd then (p.fst, p.snd) else a) acc) = acc ∨
     (slots.foldl (fun a p => if a.snd < p.snd then (p.fst, p.snd) else a) acc) ∈ slots) := by
  induction slots generalizing acc with
  | nil => simp
  | cons q rest ih =>
    simp only [List.foldl_cons]
    by_cases h : acc.snd < q.snd
    · rw [if_pos h]
      obtain ⟨ih1, ih2, ih3⟩ := ih (q.fst, q.snd)
      refine ⟨?_, by omega, ?_⟩
      · intro p hp
        rcases List.mem_cons.mp hp with rfl | hp
        · exact ih2
        · exact ih1 p hp
      · rcases ih3 with heq | hmem
        · right
          rw [heq]
          simp
        · right
          exact List.mem_cons_of_mem q hmem
    · rw [if_neg h]
      obtain ⟨ih1, ih2, ih3⟩ := ih acc
      refine ⟨?_, ih2, ?_⟩
      · intro p hp
        rcases List.mem_cons.mp hp with rfl | hp
        · omega
        · exact ih1 p hp
      · rcases ih3 with heq | hmem
        · left
          exact heq
        · right
          exact List.mem_cons_of_mem q hmem

/-- C7 counterexample: (1) on state `[(1, 100)]`, `update(1, -1)` resets the
cell to 0 and returns 0, not the claimed clamp `100 - 1 = 99`; (2) on the
reachable all-zero state `[(5, 0)]`, `max_discard` returns `(0, 0)`, which is
not the occupied `(5, 0)` pair the claim requires. -/
theorem c7_discard_stats_counterexample :
    discard_update [(1, 100)] 1 (-1) = ([(1, 0)], 0) ∧
    (([(1, 0)], (0 : Int))) ≠ (([(1, 99)], (99 : Int))) ∧
    max_discard [(5, 0)] = (0, 0) ∧
    ((0, 0) : Nat × Nat) ∉ [((5 : Nat), (0 : Nat))] := by
  refine ⟨by decide, by decide, by decide, by decide⟩

/-- C7 amended: on a fid-sorted state, `update(fid, 0)` for a present fid
returns the current value without mutation; `update(fid, d)` with `d > 0`
adds `d` (u64 wrap-around) to the present cell and returns the new value;
`update(fid, d)` with `d < 0` RESETS the present cell to 0 and returns 0
(not a clamp of `old + d`); for an absent fid, `d > 0` appends a `(fid, d)`
cell and re-sorts by fid, returning `d`, while `d ≤ 0` changes nothing and
returns 0; `max_discard` returns a pair whose bytes value is the maximum
over the occupied slots and which is an occupied slot (with its fid cast to
u32) whenever that maximum is nonzero. -/
theorem c7_discard_stats (slots : DiscardSlots) (fid cur : Nat) (discard : Int)
    (hs : dsSorted slots) :
    ((fid, cur) ∈ slots →
      discard_update slots fid 0 = (slots, i64ofU64 cur) ∧
      (0 < discard →
        (discard_update slots fid discard).snd = i64ofU64 cur + discard ∧
        dsFind (discard_update slots fid discard).fst fid =
          some ((cur + discard.toNat) % 2 ^ 64) ∧
        ∀ g, g ≠ fid →
          dsFind (discard_update slots fid discard).fst g = dsFind slots g) ∧
      (discard < 0 →
        (discard_update slots fid discard).snd = 0 ∧
        dsFind (discard_update slots fid discard).fst fid = some 0 ∧
        ∀ g, g ≠ fid →
          dsFind (discard_update slots fid discard).fst g = dsFind slots g)) ∧
    (fid ∉ slots.map Prod.fst →
      (discard ≤ 0 → discard_update slots fid discard = (slots, 0)) ∧
      (0 < discard →
        (discard_update slots fid discard).snd = discard ∧
        (discard_update slots fid discard).fst.Perm
          ((fid, discard.toNat) :: slots) ∧
        dsSorted (discard_update slots fid discard).fst)) ∧
    (∀ p ∈ slots, p.snd ≤ (max_discard slots).snd) ∧
    ((max_discard slots).snd ≠ 0 →
      ∃ p ∈ slots, p.snd = (max_discard slots).snd ∧
        (max_discard slots).fst = p.fst % 2 ^ 32) := by
  refine ⟨?_, ?_, ?_, ?_⟩
  · intro hmem
    obtain ⟨hlen, hget⟩ := dsSearchIdx_mem slots hs fid cur hmem
    have hcond : dsSearchIdx slots fid < slots.length ∧
        (slots.getD (dsSearchIdx slots fid) (0, 0)).fst = fid := by
      rw [hget]
      exact ⟨hlen, rfl⟩
    have hcur : (slots.getD (dsSearchIdx slots fid) (0, 0)).snd = cur := by
      rw [hget]
    refine ⟨?_, ?_, ?_⟩
    · simp only [discard_update, if_pos hcond, hcur]
      simp
    · intro hpos
      have h0 : discard ≠ 0 := by omega
      have hneg : ¬ discard < 0 := by omega
      have hreduce : discard_update slots fid discard =
          (slots.set (dsSearchIdx slots fid) (fid, (cur + discard.toNat) % 2 ^ 64),
           i64ofU64 cur + discard) := by
        simp only [discard_update, if_pos hcond, hcur, if_neg h0, if_neg hneg]
      obtain ⟨hf1, hf2⟩ := dsFind_set slots hs fid cur
        ((cur + discard.toNat) % 2 ^ 64) hmem
      rw [hreduce]
      exact ⟨by trivial, hf1, hf2⟩
    · intro hneg
      have h0 : discard ≠ 0 := by omega
      have hreduce : discard_update slots fid discard =
          (slots.set (dsSearchIdx slots fid) (fid, 0), 0) := by
        simp only [discard_update, if_pos hcond, hcur, if_neg h0, if_pos hneg]
      obtain ⟨hf1, hf2⟩ := dsFind_set slots hs fid cur 0 hmem
      rw [hreduce]
      exact ⟨by trivial, hf1, hf2⟩
  · intro habsent
    have hcond := dsSearchIdx_absent slots fid habsent
    refine ⟨?_, ?_⟩
    · intro hle
      simp only [discard_update, if_neg hcond, if_pos hle]
    · intro hpos
      have hle : ¬ discard ≤ 0 := by omega
      simp only [discard_update, if_neg hcond, if_neg hle]
      refine ⟨by trivial, ?_, ?_⟩
      · exact (sortByFid_perm _).trans (List.perm_append_singleton _ _)
      · apply sortByFid_sorted
        rw [List.map_append, List.nodup_append]
        refine ⟨dsSorted_fst_nodup slots hs, by simp, ?_⟩
        intro a ha
        simp only [List.map_cons, List.map_nil, List.mem_singleton]
        intro hb
        rw [hb] at ha
        exact habsent ha
  · intro p hp
    exact (max_discard_foldl_spec slots (0, 0)).1 p hp
  · intro hne
    obtain ⟨_, _, h3⟩ := max_discard_foldl_spec slots (0, 0)
    rcases h3 with heq | hmem
    · exfalso
      apply hne
      show (max_discard slots).snd = 0
      simp only [max_discard]
      rw [heq]
    · exact ⟨_, hmem, rfl, rfl⟩

/-- Sorted state used by the C7 witness. -/
def c7Slots : DiscardSlots := [(1, 100), (3, 7)]

/-- Witness for C7 amended, exercising every branch on `c7Slots`. -/
theorem c7_discard_stats_witness :
    dsSorted c7Slots ∧ ((1 : Nat), (100 : Nat)) ∈ c7Slots ∧
    (5 : Nat) ∉ c7Slots.map Prod.fst ∧
    discard_update c7Slots 1 0 = (c7Slots, i64ofU64 100) ∧
    (discard_update c7Slots 1 2).snd = i64ofU64 100 + 2 ∧
    dsFind (discard_update c7Slots 1 2).fst 1 =
      some ((100 + (2 : Int).toNat) % 2 ^ 64) ∧
    (discard_update c7Slots 1 (-1)).snd = 0 ∧
    dsFind (discard_update c7Slots 1 (-1)).fst 1 = some 0 ∧
    discard_update c7Slots 5 (-3) = (c7Slots, 0) ∧
    (discard_update c7Slots 5 4).snd = 4 ∧
    (discard_update c7Slots 5 4).fst.Perm ((5, (4 : Int).toNat) :: c7Slots) ∧
    dsSorted (discard_update c7Slots 5 4).fst ∧
    (∀ p ∈ c7Slots, p.snd ≤ (max_discard c7Slots).snd) ∧
    ((max_discard c7Slots).snd ≠ 0 →
      ∃ p ∈ c7Slots, p.snd = (max_discard c7Slots).snd ∧
        (max_discard c7Slots).fst = p.fst % 2 ^ 32) :=
  ⟨by decide, by decide, by decide,
   ((c7_discard_stats c7Slots 1 100 0 (by decide)).1 (by decide)).1,
   (((c7_discard_stats c7Slots 1 100 2 (by decide)).1 (by decide)).2.1
      (by decide)).1,
   (((c7_discard_stats c7Slots 1 100 2 (by decide)).1 (by decide)).2.1
      (by decide)).2.1,
   (((c7_discard_stats c7Slots 1 100 (-1) (by decide)).1 (by decide)).2.2
      (by decide)).1,
   (((c7_discard_stats c7Slots 1 100 (-1) (by decide)).1 (by decide)).2.2
      (by decide)).2.1,
   ((c7_discard_stats c7Slots 5 0 (-3) (by decide)).2.1 (by decide)).1
      (by decide),
   (((c7_discard_stats c7Slots 5 0 4 (by decide)).2.1 (by decide)).2
      (by decide)).1,
   (((c7_discard_stats c7Slots 5 0 4 (by decide)).2.1 (by decide)).2
      (by decide)).2.1,
   (((c7_discard_stats c7Slots 5 0 4 (by decide)).2.1 (by decide)).2
      (by decide)).2.2,
   (c7_discard_stats c7Slots 1 100 0 (by decide)).2.2.1,
   (c7_discard_stats c7Slots 1 100 0 (by decide)).2.2.2⟩

/-! ### SSTable builder block prefix compression (`src/table/builder.rs`) -/

/-- The scan of `Builder::key_diff`: walk `base_key` and `key` in step from
position `i`; at the first mismatching byte return that position; if either
list runs out first (one key a prefix of the other), the source leaves
`index` at its initial 0 and breaks. -/
def keyDiffGo : List Nat → List Nat → Nat → Nat
  | _, [], _ => 0
  | [], _ :: _, _ => 0
  | b :: bs, k :: ks, i => if k ≠ b then i else keyDiffGo bs ks (i + 1)

/-- `Builder::key_diff`: the stored key suffix, `key[index..]`. -/
def key_diff (base_key key : List Nat) : List Nat :=
  key.drop (keyDiffGo base_key key 0)

/-- The per-block state of `add_helper` that the claim is about: the base
key and, per entry, the stored `(overlap, diff_key_bytes)` header fields
(their 2-byte little-endian serialization and the appended encoded value
are independent of the claim). -/
structure Bblock where
  base_key : List Nat
  entries : List (Nat × List Nat)
  deriving DecidableEq, Repr

/-- `Builder::add_helper`, restricted to the base-key/entry bookkeeping: on
an empty base key the entry's key becomes the base key and the whole key is
the diff; otherwise `key_diff` computes the diff, and
`overlap = key_len - diff_key.len()`. -/
def add_helper (b : Bblock) (key : List Nat) : Bblock :=
  let diff_key := if b.base_key.length = 0 then key else key_diff b.base_key key
  let base := if b.base_key.length = 0 then key else b.base_key
  let overlap := key.length - diff_key.length
  ⟨base, b.entries ++ [(overlap, diff_key)]⟩

/-- Length of the longest shared prefix of two byte strings. -/
def commonPrefixLen : List Nat → List Nat → Nat
  | a :: as, b :: bs => if a = b then commonPrefixLen as bs + 1 else 0
  | _, _ => 0

/-- C9 counterexample: in a block whose base key is `[1,2,3]`, adding the
key `[1,2,3,4]` (base key a strict prefix of the new key) stores
`overlap = 0` and the full key as diff, although the longest shared prefix
with the base key has length 3: `key_diff` only sets the split index at a
mismatching byte and leaves it 0 when one key is a prefix of the other. -/
theorem c9_key_compression_counterexample :
    (add_helper (add_helper ⟨[], []⟩ [1, 2, 3]) [1, 2, 3, 4]).base_key = [1, 2, 3] ∧
    (add_helper (add_helper ⟨[], []⟩ [1, 2, 3]) [1, 2, 3, 4]).entries =
      [(0, [1, 2, 3]), (0, [1, 2, 3, 4])] ∧
    commonPrefixLen [1, 2, 3] [1, 2, 3, 4] = 3 ∧ (0 : Nat) ≠ 3 := by
  refine ⟨by decide, by decide, by decide, by decide⟩

theorem keyDiffGo_eq (base key : List Nat) (i : Nat) :
    keyDiffGo base key i =
      if commonPrefixLen base key < min key.length base.length then
        i + commonPrefixLen base key
      else 0 := by
  induction base generalizing key i with
  | nil =>
    cases key <;> simp [keyDiffGo, commonPrefixLen]
  | cons b bs ih =>
    cases key with
    | nil => simp [keyDiffGo, commonPrefixLen]
    | cons k ks =>
      by_cases hkb : k = b
      · subst hkb
        rw [keyDiffGo]
        rw [if_neg (by simp)]
        rw [ih ks (i + 1)]
        have hcp : commonPrefixLen (k :: bs) (k :: ks) = commonPrefixLen bs ks + 1 := by
          simp [commonPrefixLen]
        rw [hcp]
        simp only [List.length_cons]
        by_cases hc : commonPrefixLen bs ks < min ks.length bs.length
        · rw [if_pos hc, if_pos (by omega)]
          omega
        · rw [if_neg hc, if_neg (by omega)]
      · have hne : b ≠ k := fun h => hkb h.symm
        rw [keyDiffGo, if_pos (by simpa using hkb)]
        simp only [commonPrefixLen, if_neg hne, List.length_cons]
        rw [if_pos (by omega)]
        omega

/-- C9 amended: for the first entry of a block the base key becomes the
entry's key and `(overlap, diff) = (0, key)`.  For a later entry whose key
mismatches the base key at some position (the common case: the longest
shared prefix is shorter than both keys), the stored overlap equals the
length of the longest shared prefix with the base key and the stored diff
bytes are the suffix after it.  When instead one of the two keys is a
prefix of the other, the source stores `overlap = 0` and the FULL key as
diff (it never finds a mismatching byte and leaves the split index at 0). -/
theorem c9_block_key_compression (b : Bblock) (key : List Nat) :
    (b.base_key.length = 0 →
      (add_helper b key).base_key = key ∧
      (add_helper b key).entries = b.entries ++ [(0, key)]) ∧
    (b.base_key.length ≠ 0 →
      (add_helper b key).base_key = b.base_key ∧
      (commonPrefixLen b.base_key key < min key.length b.base_key.length →
        (add_helper b key).entries =
          b.entries ++ [(commonPrefixLen b.base_key key,
                         key.drop (commonPrefixLen b.base_key key))]) ∧
      (commonPrefixLen b.base_key key = min key.length b.base_key.length →
        (add_helper b key).entries = b.entries ++ [(0, key)])) := by
  refine ⟨?_, ?_⟩
  · intro h0
    rw [add_helper]
    simp [h0]
  · intro h0
    refine ⟨by rw [add_helper]; simp [h0], ?_, ?_⟩
    · intro hlt
      rw [add_helper]
      simp only [if_neg h0, key_diff, keyDiffGo_eq, if_pos hlt, Nat.zero_add,
        List.length_drop]
      have hov : key.length - (key.length - commonPrefixLen b.base_key key) =
          commonPrefixLen b.base_key key := by omega
      rw [hov]
    · intro heq
      rw [add_helper]
      have hnot : ¬ commonPrefixLen b.base_key key <
          min key.length b.base_key.length := by omega
      simp only [if_neg h0, key_diff, keyDiffGo_eq, if_neg hnot, List.drop_zero,
        Nat.sub_self]

/-- Witness for C9 amended: first entry; a mismatching later key; a
prefix-extending later key. -/
theorem c9_block_key_compression_witness :
    (((⟨[], []⟩ : Bblock).base_key.length = 0) ∧
      (add_helper ⟨[], []⟩ [1, 2, 9]).base_key = [1, 2, 9] ∧
      (add_helper ⟨[], []⟩ [1, 2, 9]).entries = [] ++ [(0, [1, 2, 9])]) ∧
    (commonPrefixLen [1, 2, 9] [1, 2, 5] <
        min [1, 2, 5].length [1, 2, 9].length ∧
      (add_helper ⟨[1, 2, 9], [(0, [1, 2, 9])]⟩ [1, 2, 5]).entries =
        [(0, [1, 2, 9])] ++ [(commonPrefixLen [1, 2, 9] [1, 2, 5],
          [1, 2, 5].drop (commonPrefixLen [1, 2, 9] [1, 2, 5]))]) ∧
    (commonPrefixLen [1, 2, 9] [1, 2] = min [1, 2].length [1, 2, 9].length ∧
      (add_helper ⟨[1, 2, 9], [(0, [1, 2, 9])]⟩ [1, 2]).entries =
        [(0, [1, 2, 9])] ++ [(0, [1, 2])]) :=
  ⟨⟨by decide, (c9_block_key_compression ⟨[], []⟩ [1, 2, 9]).1 (by decide)⟩,
   ⟨by decide, ((c9_block_key_compression ⟨[1, 2, 9], [(0, [1, 2, 9])]⟩
      [1, 2, 5]).2 (by decide)).2.1 (by decide)⟩,
   ⟨by decide, ((c9_block_key_compression ⟨[1, 2, 9], [(0, [1, 2, 9])]⟩
      [1, 2]).2 (by decide)).2.2 (by decide)⟩⟩

/-! ### Bloom filter construction (`src/util/bloom.rs`) -/

/-- Probe delta: `h >> 17 | h << 15` on u32 (`h` is assumed < 2^32, the
left shift wraps). -/
def bloomDelta (h : Nat) : Nat :=
  (h >>> 17) ||| (h <<< 15 % 2 ^ 32)

/-- Set the bit `bit_pos` of the filter byte array:
`filter[bit_pos / 8] |= 1 << (bit_pos % 8)`. -/
def setBit (f : List Nat) (bitPos : Nat) : List Nat :=
  f.set (bitPos / 8) (f.getD (bitPos / 8) 0 ||| 1 <<< (bitPos % 8))

/-- The `for _ in 0..k` probe loop for one key hash: set a bit at
`h % n_bits`, then advance `h` by `delta` with u32 wrap-around. -/
def setKBits : Nat → List Nat → Nat → Nat → Nat → List Nat
  | 0, f, _, _, _ => f
  | k + 1, f, h, delta, nbits =>
    setKBits k (setBit f (h % nbits)) ((h + delta) % 2 ^ 32) delta nbits

/-- The probe count of `Filter::append_filter`:
`(bits_per_key as f64 * 0.69) as u32` (rendered as exact integer
arithmetic), then clamped to `[1, 30]`. -/
def bloom_k (bits_per_key : Int) : Nat :=
  let bpk := if bits_per_key < 0 then 0 else bits_per_key.toNat
  min 30 (max 1 (bpk * 69 / 100))

/-- The bit-array size of `Filter::append_filter`:
`n_bits = len(keys) * bits_per_key` rounded up to a whole number of bytes.
The source's own comment promises a minimum filter length, but no
`max 64` (or similar) is applied. -/
def bloom_n_bits (numKeys : Nat) (bits_per_key : Int) : Nat :=
  let bpk := if bits_per_key < 0 then 0 else bits_per_key.toNat
  (numKeys * bpk + 7) / 8 * 8

/-- `Filter::append_filter` on an initially empty buffer (`Filter::new`).
`none` models the `h % n_bits` division-by-zero panic when `n_bits = 0` and
a key exists.  The result is `zeros ++ filter`: the source's `extend`
returns the whole zeroed buffer AND a copy as the trailer, sets bits in the
copy, and appends the copy to the buffer, so the written filter bytes are
preceded by `n_bytes + 1` zero bytes. -/
def append_filter (keys : List Nat) (bits_per_key : Int) : Option (List Nat) :=
  let bpk := if bits_per_key < 0 then 0 else bits_per_key.toNat
  let k := min 30 (max 1 (bpk * 69 / 100))
  let n_bytes := (keys.length * bpk + 7) / 8
  let n_bits := n_bytes * 8
  if keys.length ≠ 0 ∧ n_bits = 0 then none
  else
    let filter := keys.foldl (fun f h => setKBits k f h (bloomDelta h) n_bits)
      (List.replicate (n_bytes + 1) 0)
    some (List.replicate (n_bytes + 1) 0 ++ filter.set n_bytes k)

theorem setKBits_length (k : Nat) : ∀ (f : List Nat) (h delta nbits : Nat),
    (setKBits k f h delta nbits).length = f.length := by
  induction k with
  | zero => intro f h delta nbits; rfl
  | succ k ih =>
    intro f h delta nbits
    rw [setKBits, ih]
    simp [setBit]

theorem bloom_foldl_length (keys : List Nat) (k nbits : Nat) :
    ∀ f : List Nat,
      (keys.foldl (fun f h => setKBits k f h (bloomDelta h) nbits) f).length =
        f.length := by
  induction keys with
  | nil => intro f; rfl
  | cons h rest ih =>
    intro f
    rw [List.foldl_cons, ih, setKBits_length]

/-- C10 evaluated on the code: the bit array has NO 64-bit minimum — with
one key hash and `bits_per_key = 1` the source allocates 8 probed bits and
a 4-byte output in total (32 bits), contradicting the claim and the
source's own comment about "enforcing a minimum bloom filter length"; the
per-key probe count stored in the final byte IS clamped to `[1, 30]` for
every input that constructs a filter. -/
theorem c10_bloom_sizing_bug :
    bloom_n_bits 1 1 = 8 ∧ 8 < 64 ∧
    (append_filter [7] 1).map List.length = some 4 ∧
    (∀ (keys : List Nat) (bpk : Int) (f : List Nat),
      append_filter keys bpk = some f →
      f.getD (f.length - 1) 0 = bloom_k bpk ∧
      1 ≤ f.getD (f.length - 1) 0 ∧ f.getD (f.length - 1) 0 ≤ 30) := by
  refine ⟨by decide, by decide, by decide, ?_⟩
  intro keys bpk f hsome
  rw [append_filter] at hsome
  set bpkN := if bpk < 0 then 0 else bpk.toNat with hbpk
  set k := min 30 (max 1 (bpkN * 69 / 100)) with hk
  set n_bytes := (keys.length * bpkN + 7) / 8 with hnb
  by_cases hcond : keys.length ≠ 0 ∧ n_bytes * 8 = 0
  · rw [if_pos hcond] at hsome
    cases hsome
  · rw [if_neg hcond] at hsome
    set filter := keys.foldl
      (fun f h => setKBits k f h (bloomDelta h) (n_bytes * 8))
      (List.replicate (n_bytes + 1) 0) with hfilter
    have hflen : filter.length = n_bytes + 1 := by
      rw [hfilter, bloom_foldl_length]
      simp
    obtain rfl : f = List.replicate (n_bytes + 1) 0 ++ filter.set n_bytes k :=
      (Option.some.injEq _ _ ▸ hsome).symm
    have hslen : (filter.set n_bytes k).length = n_bytes + 1 := by
      simp [hflen]
    have hlen : (List.replicate (n_bytes + 1) (0 : Nat) ++
        filter.set n_bytes k).length = (n_bytes + 1) + (n_bytes + 1) := by
      simp [hslen]
    have hidx : (List.replicate (n_bytes + 1) (0 : Nat) ++
        filter.set n_bytes k).length - 1 = (n_bytes + 1) + n_bytes := by
      rw [hlen]
      omega
    have hgetd : (List.replicate (n_bytes + 1) (0 : Nat) ++
        filter.set n_bytes k).getD ((n_bytes + 1) + n_bytes) 0 = k := by
      rw [List.getD_append_right _ _ _ _ (by simp)]
      simp only [List.length_replicate, Nat.add_sub_cancel_left]
      have hvalid : n_bytes < filter.length := by omega
      rw [List.getD_eq_getElem?_getD, List.getElem?_set_eq_of_lt _ (by simp [hflen])]
      rfl
    rw [hidx, hgetd]
    refine ⟨rfl, ?_, ?_⟩
    · rw [hk]
      omega
    · rw [hk]
      omega

/-- Witness for the clamp conjunct of C10 at `keys = [7]`,
`bits_per_key = 1` (the constructed filter is `[0, 0, 128, 1]`). -/
theorem c10_bloom_sizing_bug_witness :
    append_filter [7] 1 = some [0, 0, 128, 1] ∧
    ([0, 0, 128, 1].getD ([0, 0, 128, 1].length - 1) 0 = bloom_k 1 ∧
      1 ≤ [0, 0, 128, 1].getD ([0, 0, 128, 1].length - 1) 0 ∧
      [0, 0, 128, 1].getD ([0, 0, 128, 1].length - 1) 0 ≤ 30) :=
  ⟨by decide, c10_bloom_sizing_bug.2.2.2 [7] 1 [0, 0, 128, 1] (by decide)⟩

/-! ### Watermark consumer (`src/txn/watermark.rs`, `WaterMark::process`) -/

/-- State of the watermark consumer task: `done_until` (the atomic),
`pending` (the `HashMap<u64, i32>` as an association list), `heap` (the
contents of the `BinaryHeap<Reverse<u64>>`, peek = minimum), and `waiters`
(the `HashMap<u64, Vec<Arc<Notify>>>` as index ↦ waiter count). -/
structure WmState where
  done_until : Nat
  pending : List (Nat × Int)
  heap : List Nat
  waiters : List (Nat × Nat)
  deriving DecidableEq, Repr

/-- Commands processed by the consumer loop. -/
inductive WmCmd where
  | begin_ (i : Nat)
  | done_ (i : Nat)
  | wait (i : Nat)
  deriving DecidableEq, Repr

/-- Lookup in the pending map. -/
def wmPendingFind (l : List (Nat × Int)) (k : Nat) : Option Int :=
  (l.find? (fun p => p.fst = k)).map Prod.snd

/-- Minimum of the heap contents (`heap.peek()` on
`BinaryHeap<Reverse<u64>>`); only used on a non-empty heap. -/
def wmMin (heap : List Nat) : Nat :=
  heap.foldl min (heap.headD 0)

/-- The drain loop of `process_one`: while the heap is non-empty and the
minimum's pending counter is NOT positive, pop it, drop its pending entry
and advance `until` to it.  The fuel is the heap size, which bounds the
pops exactly.  (The source's `pending.get(&min).unwrap()` is total in every
reachable state because heap members always carry a pending entry; the
`getD 0` default mirrors that.) -/
def wmPopGo : Nat → List Nat → List (Nat × Int) → Nat →
    List Nat × List (Nat × Int) × Nat
  | 0, heap, pending, u => (heap, pending, u)
  | fuel + 1, heap, pending, u =>
    if heap.isEmpty then (heap, pending, u)
    else
      let m := wmMin heap
      if 0 < (wmPendingFind pending m).getD 0 then (heap, pending, u)
      else wmPopGo fuel (heap.erase m) (pending.filter (fun p => p.fst ≠ m)) m

/-- The `process_one` closure of `WaterMark::process`:
`delta = +1` for Done and `-1` for Begin is added to `pending[index]`
(pushing the index onto the heap when new), the
`assert!(done_until <= index)` is checked (`none` models the panic), the
heap is drained while its minimum has `pending ≤ 0`, `done_until` is
advanced to the last popped index, and waiters up to the new `done_until`
are notified and removed (`none` models the `waiters.get(&idx).unwrap()`
panic of the second notification branch). -/
def process_one (s : WmState) (index : Nat) (dn : Bool) : Option WmState :=
  let delta : Int := if dn then 1 else -1
  let (pending, heap) :=
    match wmPendingFind s.pending index with
    | some prev =>
      (s.pending.map (fun (p : Nat × Int) => if p.fst = index then (index, prev + delta) else p),
       s.heap)
    | none => (s.pending ++ [(index, delta)], s.heap ++ [index])
  if s.done_until > index then none
  else
    let (heap2, pending2, u2) := wmPopGo heap.length heap pending s.done_until
    if u2 - s.done_until ≤ s.waiters.length then
      some ⟨u2, pending2, heap2,
        s.waiters.filter (fun (w : Nat × Nat) => ¬ (s.done_until + 1 ≤ w.fst ∧ w.fst ≤ u2))⟩
    else
      if (List.range (min s.waiters.length (u2 + 1))).all
          (fun idx => (s.waiters.find? (fun w => w.fst = idx)).isSome) then
        some ⟨u2, pending2, heap2,
          s.waiters.filter (fun w => ¬ w.fst < min s.waiters.length (u2 + 1))⟩
      else none

/-- Dispatch of one received command (`Mark::Begin` / `Mark::Done` /
`Mark::Wait`): a Wait for an index at or below `done_until` notifies
immediately, otherwise the waiter is parked. -/
def wmStep (s : WmState) : WmCmd → Option WmState
  | .begin_ i => process_one s i false
  | .done_ i => process_one s i true
  | .wait i =>
    if s.done_until ≥ i then some s
    else
      match (s.waiters.find? (fun w => w.fst = i)).map Prod.snd with
      | some n =>
        some { s with waiters :=
          s.waiters.map (fun w => if w.fst = i then (i, n + 1) else w) }
      | none => some { s with waiters := s.waiters ++ [(i, 1)] }

/-- Run the consumer over a command sequence. -/
def wmRun (s : WmState) : List WmCmd → Option WmState
  | [] => some s
  | c :: rest =>
    match wmStep s c with
    | some s2 => wmRun s2 rest
    | none => none

/-- The initial watermark state. -/
def wmInit : WmState :=
  ⟨0, [], [], []⟩

/-- C2 evaluated on the code: processing the single command `Begin(1)`
advances `done_until` to 1 although transaction 1 has begun and not Done —
the `delta` sign (−1 for Begin, +1 for Done) is inverted relative to the
`is_positive() → break` drain condition, so a just-begun index is popped
immediately.  After `Begin(1), Done(1), Begin(2), Done(2)` the Done(1)
entry re-enters the heap with pending `+1` and blocks it forever:
`done_until` stays 1 although both transactions completed, so
`wait_for_mark(2)` — and hence `Oracle::read_ts` — would hang, and a
read_ts can be returned while transaction 1 is still writing. -/
theorem c2_watermark_process_bug :
    wmRun wmInit [WmCmd.begin_ 1] = some ⟨1, [], [], []⟩ ∧
    wmRun wmInit [WmCmd.begin_ 1, WmCmd.done_ 1, WmCmd.begin_ 2, WmCmd.done_ 2] =
      some ⟨1, [(1, 1), (2, 0)], [1, 2], []⟩ := by
  refine ⟨by decide, by decide⟩

/-! ### WAL entry codec and memtable replay (`src/entry.rs` Header/Entry
codec, `src/memtable.rs` LogFile::iterate / MemTable::update_skip_list /
open_mem_table) -/

/-- Error classes of the log decoders: `truncate` is `Error::VLogTruncate`
(short read, oversized key, CRC mismatch — iteration breaks at the last
valid offset), `fatal` is any other error (iteration fails). -/
inductive DecErr where
  | truncate
  | fatal
  deriving DecidableEq, Repr

/-- On-disk entry `Header` (`src/entry.rs`). -/
structure Header where
  key_len : Nat
  value_len : Nat
  expires_at : Nat
  meta : Nat
  user_meta : Nat
  deriving DecidableEq, Repr

/-- `Header::encode`:
`meta(1) | user_meta(1) | varint(key_len) | varint(value_len) | varint(expires_at)`. -/
def header_encode (h : Header) : List Nat :=
  h.meta :: h.user_meta ::
    (encode_var h.key_len ++ encode_var h.value_len ++ encode_var h.expires_at)

/-- `Header::decode_from`, returning the header and the bytes consumed
(the `HashReader` count).  Fewer than 2 bytes of input is an
`UnexpectedEof` on the meta bytes (`truncate`); a varint that runs off the
stream is a `read_varint` error (`fatal`). -/
def header_decode (l : List Nat) : Except DecErr (Header × Nat) :=
  match l with
  | m :: u :: rest =>
    match decode_var rest with
    | none => .error .fatal
    | some (kl, n1) =>
      match decode_var (rest.drop n1) with
      | none => .error .fatal
      | some (vl, n2) =>
        match decode_var ((rest.drop n1).drop n2) with
        | none => .error .fatal
        | some (exp, n3) => .ok (⟨kl, vl, exp, m, u⟩, 2 + n1 + n2 + n3)
  | _ => .error .truncate

/-- `Entry::encode_with_buf`: `header | key | value | crc32c (u32 BE)`, the
CRC taken over header + key + value. -/
def encode_with_buf (e : Entry) : List Nat :=
  let hdr := header_encode ⟨e.key.length, e.value.length, e.expires_at, e.meta,
    e.user_meta⟩
  hdr ++ e.key ++ e.value ++ bytesBE 4 (crc32c (hdr ++ e.key ++ e.value))

/-- `LogFile::entry` (identical to `Entry::decode_from_reader`): decode the
header, reject a key length above `1 << 16` as truncation, read
key + value, read the 4-byte CRC and compare it against the CRC of the
bytes consumed through the hash reader (header + key + value).  Returns the
entry and the frame length `header_len + key + value + CRC_SIZE`. -/
def logfile_entry (l : List Nat) (offset : Nat) : Except DecErr (Entry × Nat) :=
  match header_decode l with
  | .error e => .error e
  | .ok (h, hlen) =>
    if h.key_len > 2 ^ 16 then .error .truncate
    else
      let need := h.key_len + h.value_len
      if (l.drop hlen).length < need then .error .truncate
      else
        let kv := (l.drop hlen).take need
        if (l.drop (hlen + need)).length < 4 then .error .truncate
        else
          let crc := beVal ((l.drop (hlen + need)).take 4)
          if crc ≠ crc32c (l.take (hlen + need)) then .error .truncate
          else
            .ok (⟨kv.take h.key_len, kv.drop h.key_len, h.expires_at, 0,
                  h.user_meta, h.meta, offset, hlen, 0⟩, hlen + need + 4)

/-- `"<decimal digits>".parse::<u64>()` applied to the value bytes of a
FIN_TXN record (the commit path writes the commit timestamp as plain
decimal ASCII; `parse` also accepts a leading `+`, never produced here). -/
def parseDecimal (l : List Nat) : Option Nat :=
  if l.isEmpty then none
  else if l.all (fun b => 48 ≤ b ∧ b ≤ 57) then
    some (l.foldl (fun acc b => acc * 10 + (b - 48)) 0)
  else none

/-- The loop of `LogFile::iterate`, collecting the entries handed to the
callback in order.  State: current offset, the open transaction's
timestamp (`last_commit`, 0 = no window in the source's convention), the
buffered TXN entries, `valid_end_offset`, and the callback log.  A
`truncate` decode error or an empty key breaks the loop; a `fatal` error
aborts it.  The fuel `data.length + 1` is never the binding constraint:
every successfully decoded frame is at least 9 bytes long and must fit in
the remaining data, so the loop iterates at most `data.length / 9 + 1`
times. -/
def lf_iterate_go : Nat → List Nat → Nat → Nat → List Entry → Nat →
    List Entry → Except Unit (Nat × List Entry)
  | 0, _, _, _, _, validEnd, acc => .ok (validEnd, acc)
  | fuel + 1, data, offset, lastCommit, buffered, validEnd, acc =>
    match logfile_entry (data.drop offset) offset with
    | .error .truncate => .ok (validEnd, acc)
    | .error .fatal => .error ()
    | .ok (e, n) =>
      if e.key.isEmpty then .ok (validEnd, acc)
      else
        let offset2 := offset + n
        if e.meta &&& BIT_TXN > 0 then
          let txnTs := parse_ts e.key
          let lc := if lastCommit = 0 then txnTs else lastCommit
          if lc ≠ txnTs then .ok (validEnd, acc)
          else lf_iterate_go fuel data offset2 lc (buffered ++ [e]) validEnd acc
        else if e.meta &&& BIT_FIN_TXN > 0 then
          match parseDecimal e.value with
          | none => .ok (validEnd, acc)
          | some txnTs =>
            if lastCommit ≠ txnTs then .ok (validEnd, acc)
            else lf_iterate_go fuel data offset2 0 [] offset2 (acc ++ buffered)
        else
          if lastCommit ≠ 0 then .ok (validEnd, acc)
          else lf_iterate_go fuel data offset2 lastCommit buffered offset2
            (acc ++ [e])

/-- `LogFile::iterate(offset, f)`: starts at `max(offset, 20)` (the 20-byte
keyID+IV header), `valid_end_offset` starts at 0. -/
def lf_iterate (data : List Nat) (offset : Nat) :
    Except Unit (Nat × List Entry) :=
  let off := if offset = 0 then 20 else offset
  lf_iterate_go (data.length + 1) data off 0 [] 0 []

/-- The memtable's concurrent map (`crossbeam_skiplist::SkipList`; `insert`
replaces the value of an existing key). -/
abbrev SkipListMap := List (List Nat × ValueStruct)

/-- `MemTable::replay_func`: insert the replayed entry's key and
ValueStruct (version 0) into the map. -/
def replay_insert (sl : SkipListMap) (e : Entry) : SkipListMap :=
  assocInsert sl e.key ⟨e.meta, e.user_meta, e.expires_at, e.value, 0⟩

/-- Errors of `open_mem_table`. -/
inductive MtErr where
  | truncateNeeded
  | iterateFail
  | encryption
  deriving DecidableEq, Repr

/-- `MemTable::update_skip_list`: iterate the WAL from offset 0 and replay
every callback entry into the map, tracking `max_version` as the maximum
`parse_ts(key)`; then FAIL with `TruncateNeeded` whenever the returned
`valid_end_offset` is below the WAL's size (the source omits upstream's
read-only guard on this check); on success truncate the WAL to the valid
end.  Returns the map, the max version and the valid end offset. -/
def update_skip_list (wal : List Nat) (size : Nat) :
    Except MtErr (SkipListMap × Nat × Nat) :=
  match lf_iterate wal 0 with
  | .error _ => .error .iterateFail
  | .ok (endOff, ents) =>
    if endOff < size then .error .truncateNeeded
    else .ok (ents.foldl replay_insert [],
              ents.foldl (fun mv e => max mv (parse_ts e.key)) 0, endOff)

/-- `VLOG_HEADER_SIZE`: the 20-byte keyID + base-IV log-file header. -/
def VLOG_HEADER_SIZE : Nat := 20

/-- `open_mmap_file` (memtable.rs:76-135) applied to a path that already
holds a file with bytes `content`, opened with the write access both call
sites in db.rs pass: the function clones the caller's open options and sets
`truncate(true)` (memtable.rs:84), so the open itself cuts the existing
file to 0 bytes (modelled by `content.take 0`); `metadata().len()` is then
0, and when the requested size `sz` is positive the file is grown to `sz`
zero bytes and reported as NEW.  Returns the mapped bytes and
`is_new_file`. -/
def open_mmap_file (content : List Nat) (sz : Nat) : List Nat × Bool :=
  let truncated := content.take 0
  let file_size := truncated.length
  if 0 < sz ∧ file_size = 0 then (List.replicate sz 0, true)
  else (truncated, false)

/-- `LogFile::open` for the `.mem` file of a fid whose path currently holds
`content`: maps the file via `open_mmap_file` with requested size
`2 * mem_table_size`; on a new file `bootstrap` writes the 20-byte header
(`buf.shuffle` of an all-zero array leaves every byte 0, and
`zero_next_entry` writes zeros, so the zeroed map is unchanged); `size` is
set to the mapped length; a map shorter than the header returns early with
`is_new_file = false`, otherwise a nonzero keyID in the first 8 bytes is
rejected.  Returns the mapped bytes, the stored size and `is_new_file`. -/
def log_file_open (content : List Nat) (mem_table_size : Nat) :
    Except MtErr (List Nat × Nat × Bool) :=
  let (data, is_new) := open_mmap_file content (2 * mem_table_size)
  let size := data.length
  if size < VLOG_HEADER_SIZE then .ok (data, size, false)
  else if beVal (data.take 8) ≠ 0 then .error .encryption
  else .ok (data, size, is_new)

/-- `open_mem_table` on a `.mem` path currently holding `content`: open the
WAL via `LogFile::open`; a NEW file returns the empty memtable at once
(memtable.rs:67-69) without replaying; otherwise `update_skip_list` replays
the WAL.  Returns the map, `max_version` and `is_new_file`. -/
def open_mem_table (content : List Nat) (mem_table_size : Nat) :
    Except MtErr (SkipListMap × Nat × Bool) :=
  match log_file_open content mem_table_size with
  | .error e => .error e
  | .ok (data, size, is_new) =>
    if is_new then .ok ([], 0, true)
    else
      match update_skip_list data size with
      | .error e => .error e
      | .ok (sl, mv, _) => .ok (sl, mv, false)

/-- The single put of the C1 scenario: user key `"k"` at version 1, value
`"v"`, no flags — a lone (non-TXN) record whose framed write completed. -/
def c1Entry : Entry :=
  ⟨key_with_ts [107] 1, [118], 0, 0, 0, 0, 0, 0, 0⟩

/-- The `.mem` file after the crash (`mem_table_size = 30`, so the file was
created with a 60-byte allocation): 20-byte header (keyID 0), the one
complete 19-byte frame, and the zeroed remainder. -/
def c1Wal : List Nat :=
  List.replicate 20 0 ++ encode_with_buf c1Entry ++ List.replicate 21 0

/-- The entry as the replay decoder would hand it to the callback
(offset 20, header length 5). -/
def c1DecEntry : Entry :=
  ⟨key_with_ts [107] 1, [118], 0, 0, 0, 0, 20, 5, 0⟩

/-- C1 evaluated on the code: reopening the crashed `.mem` file via
`open_mem_table` silently LOSES every completed put.  `open_mmap_file`
opens the existing file with `truncate(true)`, wiping its bytes and
reporting `is_new_file = true`, so `open_mem_table` returns an empty new
memtable without replaying — the reopened map does not contain the put, and
the claimed `max_version` update never happens (`DB::open_mem_tables` then
even deletes the "empty" file).  The WAL bytes themselves did hold the
completed framed put: iterating them decodes it with
`valid_end_offset = 39`, and replaying would rebuild the map with the put
under its internal key and `max_version = parse_ts(key) = 1`.  A second,
currently unreachable defect sits behind the first: even applied to the
surviving bytes, `update_skip_list` would reject the replay with
TruncateNeeded because the valid end 39 is below the 60-byte mapped size
(the source omits upstream's read-only guard on that check). -/
theorem c1_wal_replay_bug :
    open_mem_table c1Wal 30 = .ok ([], 0, true) ∧
    assocFind ([] : SkipListMap) (key_with_ts [107] 1) = none ∧
    open_mmap_file c1Wal (2 * 30) = (List.replicate 60 0, true) ∧
    c1Wal.length = 60 ∧
    lf_iterate c1Wal 0 = .ok (39, [c1DecEntry]) ∧
    assocFind ([c1DecEntry].foldl replay_insert []) (key_with_ts [107] 1) =
      some ⟨0, 0, 0, [118], 0⟩ ∧
    [c1DecEntry].foldl (fun mv e => max mv (parse_ts e.key)) 0 = 1 ∧
    update_skip_list c1Wal c1Wal.length = .error .truncateNeeded := by
  refine ⟨by decide, by decide, by decide, by decide, by decide, by decide,
    by decide, by decide⟩
